import Mathlib

/- Shallow embedding of src/src/rtPathUtils.cpp (pxCore path utilities) in its
   POSIX configuration: the WIN32 / RT_PLATFORM_WINDOWS branches of the source
   are not compiled on POSIX and are omitted.  rtString values are modelled as
   List Char; C strings that may be NULL as Option (List Char); the process
   environment as a function from variable name to value, none standing for an
   unset variable.  rtString::find returns an index or -1; it is modelled as
   Option Nat, none standing for -1. -/

/-- Error codes of the rt error type; the source file uses RT_OK, RT_FAIL and
    RT_ERROR. -/
inductive rtError where
  | RT_OK
  | RT_FAIL
  | RT_ERROR
  deriving DecidableEq, Repr

/-- The process environment: a variable name maps to its value, or to none when
    the variable is unset. -/

abbrev EnvMap := String → Option (List Char)

/-- Model of rtString::find(start, c): the index of the first occurrence of the
    character c at or after index start, none when there is none. -/

def charIndexFrom (s : List Char) (start : Nat) (c : Char) : Option Nat :=
  match s, start with
  | [], _ => none
  | a :: rest, 0 => if a = c then some 0 else (charIndexFrom rest 0 c).map (· + 1)
  | _ :: rest, start + 1 => (charIndexFrom rest start c).map (· + 1)

/-- Model of rtGetCurrentDirectory: getcwd's answer is the parameter
    getcwdResult (none when the OS call fails); on failure the caller's string d
    is left as it was.  The source returns RT_OK on every path. -/

theorem charIndexFrom_le (s : List Char) (start : Nat) (c : Char) (p : Nat)
    (h : charIndexFrom s start c = some p) : start ≤ p := by
  induction s generalizing start p with
  | nil => simp [charIndexFrom] at h
  | cons a rest ih =>
    cases start with
    | zero => exact Nat.zero_le p
    | succ n =>
      simp only [charIndexFrom, Option.map_eq_some'] at h
      obtain ⟨q, hq, rfl⟩ := h
      exact Nat.succ_le_succ (ih n q hq)

theorem charIndexFrom_lt_length (s : List Char) (start : Nat) (c : Char) (p : Nat)
    (h : charIndexFrom s start c = some p) : p < s.length := by
  induction s generalizing start p with
  | nil => simp [charIndexFrom] at h
  | cons a rest ih =>
    cases start with
    | zero =>
      simp only [charIndexFrom] at h
      split at h
      · simp_all
        omega
      · simp only [Option.map_eq_some'] at h
        obtain ⟨q, hq, rfl⟩ := h
        have := ih 0 q hq
        simp only [List.length_cons]
        omega
    | succ n =>
      simp only [charIndexFrom, Option.map_eq_some'] at h
      obtain ⟨q, hq, rfl⟩ := h
      have := ih n q hq
      simp only [List.length_cons]
      omega

def rtGetCurrentDirectory (getcwdResult : Option (List Char)) (d : List Char) :
    rtError × List Char :=
  match getcwdResult with
  | some p => (rtError.RT_OK, p)
  | none => (rtError.RT_OK, d)

/-- Model of rtEnsureTrailingPathSeparator: append a '/' unless the string
    already ends with one; always RT_OK. -/

def rtEnsureTrailingPathSeparator (d : List Char) : rtError × List Char :=
  if ['/'].isSuffixOf d then (rtError.RT_OK, d)
  else (rtError.RT_OK, d ++ ['/'])

/-- Model of rtGetEnv: the rtString assignment turns a NULL getenv result into
    the empty string; the function returns RT_OK on every path. -/

def rtGetEnv (env : EnvMap) (e : String) : rtError × List Char :=
  (rtError.RT_OK, (env e).getD [])

/-- Model of rtGetHomeDirectory (POSIX: the variable is HOME): e starts as
    RT_FAIL and is replaced by rtEnsureTrailingPathSeparator's result when
    rtGetEnv returns RT_OK. -/

def rtGetHomeDirectory (env : EnvMap) : rtError × List Char :=
  let g := rtGetEnv env ("HOME")
  if g.1 = rtError.RT_OK then rtEnsureTrailingPathSeparator g.2
  else (rtError.RT_FAIL, g.2)

/-- Model of rtGetEnvAsString: the raw environment value, or defaultValue when
    that value is empty. -/

def rtGetEnvAsString (env : EnvMap) (name : String) (defaultValue : List Char) :
    List Char :=
  let v := (rtGetEnv env name).2
  if v = [] then defaultValue else v

/-- Model of the const char* overload of rtIsPathAbsolute: NULL is never
    absolute; otherwise the test reads path[0] (the NUL terminator when the
    string is empty) and compares it with '/'. -/

def rtIsPathAbsoluteC (path : Option (List Char)) : Bool :=
  match path with
  | none => false
  | some s => s.headD (Char.ofNat 0) == '/'

/-- Model of the rtString overload of rtIsPathAbsolute: an empty string is
    never absolute, otherwise the const char* overload decides. -/

def rtIsPathAbsoluteS (path : List Char) : Bool :=
  if path.isEmpty then false
  else rtIsPathAbsoluteC (some path)

/- Theorems for the simple operations.  Claim theorems are stated as one
   conjunction each; helper facts they share are proved first. -/

def takeToFirst (s : List Char) (c : Char) : List Char :=
  match charIndexFrom s 0 c with
  | some pos => s.take pos
  | none => s

def lastSlashFrom (s : List Char) (start : Nat) : Option Nat :=
  match h : charIndexFrom s start '/' with
  | none => none
  | some pos =>
    match lastSlashFrom s (pos + 1) with
    | none => some pos
    | some q => some q
termination_by s.length - start
decreasing_by
  have h1 := charIndexFrom_le s start '/' pos h
  have h2 := charIndexFrom_lt_length s start '/' pos h
  omega

/-- Model of the tail of rtResolveRelativePath: the base kept through its last
    '/' when one exists, empty otherwise. -/

def takeThroughLastSlash (s : List Char) : List Char :=
  match lastSlashFrom s 0 with
  | some lastPos => s.take (lastPos + 1)
  | none => []

/-- Model of rtResolveRelativePath: strip at the first '#', strip at the first
    '?', keep the base through its last '/' (or nothing), and append the
    relative path. -/

def rtResolveRelativePath (relative base : List Char) : List Char :=
  takeThroughLastSlash (takeToFirst (takeToFirst base '#') '?') ++ relative

def resolveRelativeSpec (relative base : List Char) : List Char :=
  let stripped := (base.takeWhile (fun b => b != '#')).takeWhile (fun b => b != '?')
  (stripped.reverse.dropWhile (fun b => b != '/')).reverse ++ relative

/-- C1: resolveRelative truncates the base at its first '#', then truncates the
    remainder at its first '?', then keeps the prefix of the stripped base up
    to and including its last '/' (exactly the stripped base minus its final
    non-'/' run) and concatenates the relative path, the relative path alone
    when no '/' remains; in particular ("c.js", "http://x/a/b?q=1#frag") gives
    "http://x/a/c.js" and ("c.js", "nofile") gives "c.js". -/

def rtModuleDirSeparator : Char := ':'

/-- Model of the while loop of rtModuleDirs::rtModuleDirs: while the remaining
    value is nonempty, find the first separator; when found, push the piece
    before it and continue after it, pushing one extra empty entry when nothing
    follows; when not found, push the whole remainder and stop. -/

def splitModuleDirs (env : List Char) (sep : Char) : List (List Char) :=
  if env = [] then []
  else
    match h : charIndexFrom env 0 sep with
    | some index =>
      let rest := env.drop (index + 1)
      if rest = [] then [env.take index, []]
      else env.take index :: splitModuleDirs rest sep
    | none => [env]
termination_by env.length
decreasing_by
  simp only [List.length_drop]
  have hlt := charIndexFrom_lt_length env 0 sep index h
  omega

/-- Model of rtModuleDirs::rtModuleDirs(env_name): read env_name with the
    current working directory as the default value, and split the value on the
    module-dir separator. -/

def rtModuleDirsInit (env : EnvMap) (envName : String) (cwd : List Char) :
    List (List Char) :=
  splitModuleDirs (rtGetEnvAsString env envName cwd) rtModuleDirSeparator

/-- Model of rtConcatenatePath: ensure a trailing separator on dir, then append
    file. -/

def rtConcatenatePath (dir file : List Char) : List Char :=
  (rtEnsureTrailingPathSeparator dir).2 ++ file

/-- Model of rtGetRootModulePath over the singleton's parsed directory list:
    the source dereferences iterator().first, i.e. begin(), of the list and
    concatenates the file name (the empty string when file is NULL) onto the
    first entry; dereferencing begin() of an empty vector is out of bounds and
    is modelled as none. -/

def rtGetRootModulePath (moduleDirs : List (List Char)) (file : Option (List Char)) :
    Option (List Char) :=
  match moduleDirs with
  | [] => none
  | rootDir :: _ => some (rtConcatenatePath rootDir (file.getD []))

structure ModuleDirsState where
  mModuleInstance : Option (List (List Char))
  liveInstances : Nat
  deriving DecidableEq, Repr

/-- The operations a caller can perform on the singleton.  instance carries
    the environment, variable name and current working directory that the
    constructor would read. -/

inductive ModuleDirsOp where
  | callInstance (env : EnvMap) (envName : String) (cwd : List Char)
  | callDestroy
  | callIterator

/-- Whether an operation is rtModuleDirs::destroy. -/
def ModuleDirsOp.isDestroy : ModuleDirsOp → Bool
  | .callDestroy => true
  | _ => false

/-- One step of the singleton lifecycle: instance() constructs (new) only when
    the pointer is NULL; destroy() deletes (when non-NULL) and resets the
    pointer to NULL; iterator() only reads. -/

def moduleDirsStep (s : ModuleDirsState) : ModuleDirsOp → ModuleDirsState
  | .callInstance env envName cwd =>
    match s.mModuleInstance with
    | none => ⟨some (rtModuleDirsInit env envName cwd), s.liveInstances + 1⟩
    | some _ => s
  | .callDestroy =>
    match s.mModuleInstance with
    | none => ⟨none, s.liveInstances⟩
    | some _ => ⟨none, s.liveInstances - 1⟩
  | .callIterator => s

/-- Running a sequence of operations from a state. -/
def moduleDirsRun (s : ModuleDirsState) (ops : List ModuleDirsOp) : ModuleDirsState :=
  ops.foldl moduleDirsStep s

/-- The initial state: the static pointer starts as NULL and nothing is live. -/
def moduleDirsState0 : ModuleDirsState := ⟨none, 0⟩

/-- Plain split of a character list on '/'. -/
def splitSlash : List Char → List (List Char)
  | [] => [[]]
  | c :: rest =>
    if c = '/' then [] :: splitSlash rest
    else
      match splitSlash rest with
      | t :: ts => (c :: t) :: ts
      | [] => [[c]]

/-- The nonempty '/'-separated components of a path. -/
def comps (s : List Char) : List (List Char) :=
  (splitSlash s).filter (fun t => t ≠ [])

/-- A directory as the filesystem stores it: absolute flag and components. -/
abbrev FsPath := Bool × List (List Char)

/-- The filesystem object a raw path names. -/
def normPath (s : List Char) : FsPath :=
  (decide (s.head? = some '/'), comps s)

/-- Model of rtFileExists (one stat call): the empty string names nothing; a
    nonempty all-slash path is the root, which always exists; any other path
    exists iff its normalized directory is in the filesystem. -/

def rtFileExists (fs : List FsPath) (s : List Char) : Bool :=
  if s = [] then false
  else if comps s = [] then decide (s.head? = some '/')
  else decide (normPath s ∈ fs)

/-- Model of the do-while loop of rtMakeDirectory: i is the find cursor (the
    source's i); each iteration finds the next '/' strictly after i, takes the
    prefix of dir through it — the whole of dir when there is none — skips it
    when it exists, creates it otherwise (recording the created directory),
    and stops with failure when mkdir fails.  Returns (retVal == 0, the final
    filesystem, the directories created in order). -/

def rtMakeDirectoryAux (dir : List Char) (mkdirOk : List Char → Bool)
    (fs : List FsPath) (i : Nat) : Bool × List FsPath × List FsPath :=
  match h : charIndexFrom dir (i + 1) '/' with
  | some pos =>
    if rtFileExists fs (dir.take (pos + 1)) then rtMakeDirectoryAux dir mkdirOk fs pos
    else if mkdirOk (dir.take (pos + 1)) then
      let r := rtMakeDirectoryAux dir mkdirOk (normPath (dir.take (pos + 1)) :: fs) pos
      (r.1, r.2.1, normPath (dir.take (pos + 1)) :: r.2.2)
    else (false, fs, [])
  | none =>
    if rtFileExists fs dir then (true, fs, [])
    else if mkdirOk dir then (true, normPath dir :: fs, [normPath dir])
    else (false, fs, [])
termination_by dir.length - i
decreasing_by
  all_goals
    have h1 := charIndexFrom_le dir (i + 1) '/' pos h
    have h2 := charIndexFrom_lt_length dir (i + 1) '/' pos h
    omega

/-- Model of rtMakeDirectory: the loop starts with i = 0, so the first find
    begins at index 1 (a leading '/' is never a segment of its own). -/

def rtMakeDirectory (dir : List Char) (mkdirOk : List Char → Bool)
    (fs : List FsPath) : Bool × List FsPath × List FsPath :=
  rtMakeDirectoryAux dir mkdirOk fs 0

/-- Specification side, from the claim's words: the positions of the '/'
    separators of dir at index start or later, in left-to-right order. -/

def slashPositionsFrom (dir : List Char) (start : Nat) : List Nat :=
  (List.range dir.length).filter (fun p => decide (start ≤ p ∧ dir[p]? = some '/'))

/-- The '/' positions the loop visits: every one at index 1 or later. -/
def slashPositions (dir : List Char) : List Nat :=
  slashPositionsFrom dir 1

/-- Specification side, from the claim's words: process a list of path
    prefixes left to right, skipping one that exists, creating one that is
    missing, and stopping with failure at the first creation failure. -/

def mkdirSpec (subs : List (List Char)) (mkdirOk : List Char → Bool)
    (fs : List FsPath) : Bool × List FsPath × List FsPath :=
  match subs with
  | [] => (true, fs, [])
  | sub :: rest =>
    if rtFileExists fs sub then mkdirSpec rest mkdirOk fs
    else if mkdirOk sub then
      let r := mkdirSpec rest mkdirOk (normPath sub :: fs)
      (r.1, r.2.1, normPath sub :: r.2.2)
    else (false, fs, [])

/-- The prefixes the claim says are processed: one through each '/' separator
    at index 1 or later, in order, and finally the whole path. -/

def processSubs (dir : List Char) : List (List Char) :=
  (slashPositions dir).map (fun p => dir.take (p + 1)) ++ [dir]

/-- A real filesystem is prefix-closed: a directory's parent exists (the root
    and the current directory are implicit, hence the nonempty guard). -/

def prefixClosed (fs : List FsPath) : Prop :=
  ∀ (ab : Bool) (cs : List (List Char)) (c : List Char),
    (ab, cs ++ [c]) ∈ fs → cs ≠ [] → (ab, cs) ∈ fs

theorem isSuffixOf_singleton_append (d : List Char) (c : Char) :
    [c].isSuffixOf (d ++ [c]) = true := by
  simp [List.isSuffixOf, List.isPrefixOf, List.reverse_append]

theorem isSuffixOf_singleton_iff_getLast? (d : List Char) (c : Char) :
    [c].isSuffixOf d = true ↔ d.getLast? = some c := by
  rw [← List.head?_reverse]
  rw [show [c].isSuffixOf d = [c].isPrefixOf d.reverse from by simp [List.isSuffixOf]]
  generalize d.reverse = r
  cases r with
  | nil => simp [List.isPrefixOf]
  | cons b t =>
    simp only [List.isPrefixOf, Bool.and_true, beq_iff_eq, List.head?_cons,
      Option.some.injEq]
    exact eq_comm

/-- C5: getCurrentDirectory never returns a distinct error code (always RT_OK);
    when the OS call succeeds the returned path is exactly the OS-reported
    working directory; when it fails the caller's string is left unchanged, so
    with the conventional fresh (empty) result holder the failure is signaled
    by an empty result. -/

theorem C5_getCurrentDirectory :
    (∀ os d, (rtGetCurrentDirectory os d).1 = rtError.RT_OK) ∧
    (∀ p d, rtGetCurrentDirectory (some p) d = (rtError.RT_OK, p)) ∧
    (∀ d, rtGetCurrentDirectory none d = (rtError.RT_OK, d)) ∧
    rtGetCurrentDirectory none [] = (rtError.RT_OK, []) := by
  refine ⟨fun os d => ?_, fun p d => rfl, fun d => rfl, rfl⟩
  cases os <;> rfl

/-- C6: on POSIX, isPathAbsolute is true exactly when the first character is
    '/'; the empty string and the null pointer yield false (the null check in
    the source makes the null case total, i.e. no crash). -/

theorem C6_isPathAbsolute :
    (∀ s, rtIsPathAbsoluteS s = true ↔ s.head? = some '/') ∧
    (∀ c s, rtIsPathAbsoluteC (some (c :: s)) = (c == '/')) ∧
    rtIsPathAbsoluteC none = false ∧
    rtIsPathAbsoluteC (some []) = false ∧
    rtIsPathAbsoluteS [] = false ∧
    (∀ s, rtIsPathAbsoluteS s = rtIsPathAbsoluteC (some s)) ∧
    rtIsPathAbsoluteS (("/a/b").toList) = true ∧
    rtIsPathAbsoluteS (("a/b").toList) = false := by
  refine ⟨fun s => ?_, fun c s => ?_, rfl, by decide, rfl, fun s => ?_, by decide, by decide⟩
  · cases s with
    | nil => simp [rtIsPathAbsoluteS]
    | cons c t =>
      by_cases hc : c = '/'
      · subst hc
        simp [rtIsPathAbsoluteS, rtIsPathAbsoluteC]
      · simp [rtIsPathAbsoluteS, rtIsPathAbsoluteC, hc]
  · simp [rtIsPathAbsoluteC]
  · cases s <;> simp [rtIsPathAbsoluteS, rtIsPathAbsoluteC]

/-- C7: getEnv maps an unset variable to the empty value and RT_OK, so an unset
    variable and one set to the empty string are indistinguishable; and
    getEnvAsString returns the default exactly on an empty environment value
    and the raw value otherwise (concretely, an unset variable with default
    "fallback" yields "fallback"). -/

theorem C7_getEnv :
    (∀ env n, env n = none → rtGetEnv env n = (rtError.RT_OK, [])) ∧
    (∀ env₁ env₂ n, env₁ n = none → env₂ n = some [] →
      rtGetEnv env₁ n = rtGetEnv env₂ n) ∧
    (∀ env n d, (env n).getD [] = [] → rtGetEnvAsString env n d = d) ∧
    (∀ env n d v, env n = some v → v ≠ [] → rtGetEnvAsString env n d = v) ∧
    rtGetEnvAsString (fun _ => none) ("UNSET_VAR_XYZ") (("fallback").toList) =
      ("fallback").toList := by
  refine ⟨fun env n h => ?_, fun env₁ env₂ n h₁ h₂ => ?_, fun env n d h => ?_,
    fun env n d v h hv => ?_, rfl⟩
  · simp [rtGetEnv, h]
  · simp [rtGetEnv, h₁, h₂]
  · simp [rtGetEnvAsString, rtGetEnv, h]
  · simp [rtGetEnvAsString, rtGetEnv, h, hv]

theorem C7_getEnv_witness :
    rtGetEnv (fun _ => none) ("SOME_UNSET_NAME") = (rtError.RT_OK, []) :=
  C7_getEnv.1 (fun _ => none) ("SOME_UNSET_NAME") rfl

/-- C8: ensureTrailingSeparator is idempotent on the path it returns, appends
    the separator exactly when the path does not already end with '/', returns
    the path unchanged exactly when it does, and always reports RT_OK; ending
    with '/' agrees with the last character being '/'. -/

theorem C8_ensureTrailingSeparator :
    (∀ d, (rtEnsureTrailingPathSeparator (rtEnsureTrailingPathSeparator d).2).2 =
      (rtEnsureTrailingPathSeparator d).2) ∧
    (∀ d, (rtEnsureTrailingPathSeparator d).2 = d ++ ['/'] ↔
      ['/'].isSuffixOf d = false) ∧
    (∀ d, (rtEnsureTrailingPathSeparator d).2 = d ↔ ['/'].isSuffixOf d = true) ∧
    (∀ d, ['/'].isSuffixOf d = true ↔ d.getLast? = some '/') ∧
    (∀ d, (rtEnsureTrailingPathSeparator d).1 = rtError.RT_OK) := by
  have happ : ∀ d : List Char, (rtEnsureTrailingPathSeparator d).2 = d ∨
      (rtEnsureTrailingPathSeparator d).2 = d ++ ['/'] := by
    intro d
    by_cases h : ['/'].isSuffixOf d
    · exact Or.inl (by simp [rtEnsureTrailingPathSeparator, h])
    · exact Or.inr (by simp [rtEnsureTrailingPathSeparator, h])
  refine ⟨fun d => ?_, fun d => ?_, fun d => ?_, fun d => isSuffixOf_singleton_iff_getLast? d '/',
    fun d => ?_⟩
  · by_cases h : ['/'].isSuffixOf d
    · simp [rtEnsureTrailingPathSeparator, h]
    · simp [rtEnsureTrailingPathSeparator, h, isSuffixOf_singleton_append]
  · constructor
    · intro heq
      by_contra hsuf
      simp only [Bool.not_eq_false] at hsuf
      rw [rtEnsureTrailingPathSeparator, if_pos hsuf] at heq
      simp only at heq
      have hl := congrArg List.length heq
      simp at hl
    · intro h
      simp [rtEnsureTrailingPathSeparator, h]
  · constructor
    · intro heq
      by_contra hsuf
      simp only [Bool.not_eq_true] at hsuf
      rw [rtEnsureTrailingPathSeparator, if_neg (by simp [hsuf])] at heq
      simp only at heq
      have hl := congrArg List.length heq
      simp at hl
    · intro h
      simp [rtEnsureTrailingPathSeparator, h]
  · by_cases h : ['/'].isSuffixOf d <;> simp [rtEnsureTrailingPathSeparator, h]

/-- C4 counterexample: with HOME unset, getHomeDirectory does not fail: it
    returns RT_OK (not RT_FAIL) and the path "/", because rtGetEnv always
    returns RT_OK, so the RT_FAIL initialization is always overwritten. -/

theorem C4_homeDirectory_counterexample :
    (rtGetHomeDirectory (fun _ => none)).1 = rtError.RT_OK ∧
    (rtGetHomeDirectory (fun _ => none)).2 = ['/'] ∧
    rtError.RT_OK ≠ rtError.RT_FAIL := by
  refine ⟨rfl, rfl, by decide⟩

/-- C4 amended: getHomeDirectory reads the home-directory environment variable
    (HOME on POSIX) and ensures a trailing separator on its value; it always
    returns RT_OK — it never fails — and when the variable is unset or empty
    the returned path is just "/". -/

theorem C4_homeDirectory_amended :
    (∀ env, (rtGetHomeDirectory env).1 = rtError.RT_OK) ∧
    (∀ env, (rtGetHomeDirectory env).2 =
      (rtEnsureTrailingPathSeparator ((env ("HOME")).getD [])).2) ∧
    (rtGetHomeDirectory (fun _ => none)).2 = ['/'] ∧
    (rtGetHomeDirectory (fun n => if n = "HOME" then some [] else none)).2 = ['/'] := by
  refine ⟨fun env => ?_, fun env => ?_, rfl, rfl⟩
  · rw [rtGetHomeDirectory]
    simp only [rtGetEnv, if_pos rfl]
    by_cases h : ['/'].isSuffixOf ((env ("HOME")).getD []) <;>
      simp [rtEnsureTrailingPathSeparator, h]
  · rw [rtGetHomeDirectory]
    simp [rtGetEnv]

/- Embedding of rtResolveRelativePath.  The source truncates the base at the
   first '#', then at the first '?', then scans with a find loop for the last
   '/' and keeps the base through it (or drops the base entirely when there is
   no '/'), and appends the relative path. -/

/-- Model of the source's `pos = find(0, c); if (pos != -1) s = s.substring(0, pos)`
    step: the string truncated at the first occurrence of c. -/

theorem charIndexFrom_getElem? (s : List Char) (start : Nat) (c : Char) (p : Nat)
    (h : charIndexFrom s start c = some p) : s[p]? = some c := by
  induction s generalizing start p with
  | nil => simp [charIndexFrom] at h
  | cons a rest ih =>
    cases start with
    | zero =>
      simp only [charIndexFrom] at h
      split at h
      · simp only [Option.some.injEq] at h
        subst h
        simp_all
      · simp only [Option.map_eq_some'] at h
        obtain ⟨q, hq, rfl⟩ := h
        simpa using ih 0 q hq
    | succ n =>
      simp only [charIndexFrom, Option.map_eq_some'] at h
      obtain ⟨q, hq, rfl⟩ := h
      simpa using ih n q hq

theorem charIndexFrom_min (s : List Char) (start : Nat) (c : Char) (p : Nat)
    (h : charIndexFrom s start c = some p) :
    ∀ j, start ≤ j → j < p → s[j]? ≠ some c := by
  induction s generalizing start p with
  | nil => simp [charIndexFrom] at h
  | cons a rest ih =>
    intro j hj hjp
    cases start with
    | zero =>
      simp only [charIndexFrom] at h
      split at h
      · simp only [Option.some.injEq] at h
        omega
      · rename_i hac
        simp only [Option.map_eq_some'] at h
        obtain ⟨q, hq, rfl⟩ := h
        cases j with
        | zero =>
          simpa using hac
        | succ j' =>
          simpa using ih 0 q hq j' (Nat.zero_le j') (by omega)
    | succ n =>
      simp only [charIndexFrom, Option.map_eq_some'] at h
      obtain ⟨q, hq, rfl⟩ := h
      cases j with
      | zero => omega
      | succ j' =>
        simpa using ih n q hq j' (by omega) (by omega)

theorem charIndexFrom_none (s : List Char) (start : Nat) (c : Char)
    (h : charIndexFrom s start c = none) :
    ∀ j, start ≤ j → s[j]? ≠ some c := by
  induction s generalizing start with
  | nil => simp
  | cons a rest ih =>
    intro j hj
    cases start with
    | zero =>
      simp only [charIndexFrom] at h
      split at h
      · simp at h
      · rename_i hac
        simp only [Option.map_eq_none'] at h
        cases j with
        | zero => simpa using hac
        | succ j' => simpa using ih 0 h j' (Nat.zero_le j')
    | succ n =>
      simp only [charIndexFrom, Option.map_eq_none'] at h
      cases j with
      | zero => omega
      | succ j' => simpa using ih n h j' (by omega)

theorem takeToFirst_eq_takeWhile (s : List Char) (c : Char) :
    takeToFirst s c = s.takeWhile (fun b => b != c) := by
  induction s with
  | nil => rfl
  | cons a rest ih =>
    by_cases hac : a = c
    · subst hac
      simp [takeToFirst, charIndexFrom, List.takeWhile_cons]
    · rw [takeToFirst, List.takeWhile_cons]
      simp only [charIndexFrom, if_neg hac, bne_iff_ne, ne_eq, hac, not_false_eq_true,
        if_true]
      rw [takeToFirst] at ih
      cases hr : charIndexFrom rest 0 c with
      | none =>
        rw [hr] at ih
        simp only [hr, Option.map_none']
        simpa using ih
      | some q =>
        rw [hr] at ih
        simp only [hr, Option.map_some', List.take_succ_cons]
        simpa using ih

/-- Model of the source's while loop `pos = find(0, c); while (pos != -1)
    { lastPos = pos; pos = find(lastPos + 1, c); }` specialised to '/': the
    index of the last '/' at or after start, none when there is none. -/

theorem lastSlashFrom_none (s : List Char) (start : Nat)
    (h : lastSlashFrom s start = none) :
    ∀ j, start ≤ j → s[j]? ≠ some '/' := by
  rw [lastSlashFrom] at h
  split at h
  · exact charIndexFrom_none s start '/' (by assumption)
  · split at h <;> simp at h

theorem lastSlashFrom_getElem? (s : List Char) (start : Nat) (p : Nat)
    (h : lastSlashFrom s start = some p) : s[p]? = some '/' := by
  have H : ∀ n start p, s.length - start = n → lastSlashFrom s start = some p →
      s[p]? = some '/' := by
    intro n
    induction n using Nat.strong_induction_on with
    | _ n ih =>
      intro start p hn h
      rw [lastSlashFrom] at h
      split at h
      · simp at h
      · rename_i pos hci
        split at h
        · rename_i hrec
          simp only [Option.some.injEq] at h
          rw [h] at hci
          exact charIndexFrom_getElem? s start '/' p hci
        · rename_i q hrec
          simp only [Option.some.injEq] at h
          rw [h] at hrec
          have h1 := charIndexFrom_le s start '/' pos hci
          have h2 := charIndexFrom_lt_length s start '/' pos hci
          exact ih (s.length - (pos + 1)) (by omega) (pos + 1) p rfl hrec
  exact H (s.length - start) start p rfl h

theorem lastSlashFrom_max (s : List Char) (start : Nat) (p : Nat)
    (h : lastSlashFrom s start = some p) :
    ∀ j, p < j → s[j]? ≠ some '/' := by
  have H : ∀ n start p, s.length - start = n → lastSlashFrom s start = some p →
      ∀ j, p < j → s[j]? ≠ some '/' := by
    intro n
    induction n using Nat.strong_induction_on with
    | _ n ih =>
      intro start p hn h
      rw [lastSlashFrom] at h
      split at h
      · simp at h
      · rename_i pos hci
        split at h
        · rename_i hrec
          simp only [Option.some.injEq] at h
          rw [h] at hrec
          intro j hj
          exact lastSlashFrom_none s (p + 1) hrec j (by omega)
        · rename_i q hrec
          simp only [Option.some.injEq] at h
          rw [h] at hrec
          have h1 := charIndexFrom_le s start '/' pos hci
          have h2 := charIndexFrom_lt_length s start '/' pos hci
          exact ih (s.length - (pos + 1)) (by omega) (pos + 1) p rfl hrec
  exact H (s.length - start) start p rfl h

theorem dropWhileRev_eq_nil (s : List Char) (h : ∀ j : Nat, s[j]? ≠ some '/') :
    (s.reverse.dropWhile (fun b => b != '/')).reverse = [] := by
  have hd : s.reverse.dropWhile (fun b => b != '/') = [] := by
    rw [List.dropWhile_eq_nil_iff]
    intro x hx
    have hxs : x ∈ s := List.mem_reverse.mp hx
    obtain ⟨i, hi⟩ := List.mem_iff_getElem?.mp hxs
    have hne := h i
    simp only [bne_iff_ne, ne_eq, decide_eq_true_eq]
    intro hxeq
    rw [hxeq] at hi
    exact hne hi
  simp [hd]

theorem dropWhileRev_eq_take (s : List Char) (p : Nat) (hget : s[p]? = some '/')
    (hmax : ∀ j, p < j → s[j]? ≠ some '/') :
    (s.reverse.dropWhile (fun b => b != '/')).reverse = s.take (p + 1) := by
  have hrev : s.reverse = (s.drop (p + 1)).reverse ++ (s.take (p + 1)).reverse := by
    rw [← List.reverse_append, List.take_append_drop]
  have hall : (s.drop (p + 1)).reverse.dropWhile (fun b => b != '/') = [] := by
    rw [List.dropWhile_eq_nil_iff]
    intro x hx
    have hxs : x ∈ s.drop (p + 1) := List.mem_reverse.mp hx
    obtain ⟨i, hi⟩ := List.mem_iff_getElem?.mp hxs
    rw [List.getElem?_drop] at hi
    have hne := hmax (p + 1 + i) (by omega)
    simp only [bne_iff_ne, ne_eq, decide_eq_true_eq]
    intro hxeq
    rw [hxeq] at hi
    exact hne hi
  have htake : s.take (p + 1) = s.take p ++ ['/'] := by
    rw [List.take_succ, hget]
    rfl
  rw [hrev, List.dropWhile_append, hall]
  simp only [List.isEmpty_nil, if_true]
  rw [htake, List.reverse_append]
  simp only [List.reverse_cons, List.reverse_nil, List.nil_append, List.singleton_append]
  rw [List.dropWhile_cons]
  simp only [bne_self_eq_false, Bool.false_eq_true, if_false]
  rw [List.reverse_cons, List.reverse_reverse]

theorem takeThroughLastSlash_eq (s : List Char) :
    takeThroughLastSlash s = (s.reverse.dropWhile (fun b => b != '/')).reverse := by
  cases h : lastSlashFrom s 0 with
  | none =>
    rw [takeThroughLastSlash, h]
    exact (dropWhileRev_eq_nil s (fun j => lastSlashFrom_none s 0 h j (Nat.zero_le j))).symm
  | some k =>
    rw [takeThroughLastSlash, h]
    exact (dropWhileRev_eq_take s k (lastSlashFrom_getElem? s 0 k h)
      (lastSlashFrom_max s 0 k h)).symm

/-- Specification of resolveRelative written from the spec's words: strip any
    fragment suffix, then any query suffix, keep the base up to and including
    its last '/' (or nothing when there is no '/'), and concatenate the
    relative path onto it. -/

theorem C1_resolveRelativePath :
    (∀ r b, rtResolveRelativePath r b = resolveRelativeSpec r b) ∧
    rtResolveRelativePath (("c.js").toList) (("http://x/a/b?q=1#frag").toList) =
      ("http://x/a/c.js").toList ∧
    rtResolveRelativePath (("c.js").toList) (("nofile").toList) = ("c.js").toList := by
  have hmain : ∀ r b : List Char, rtResolveRelativePath r b = resolveRelativeSpec r b := by
    intro r b
    rw [rtResolveRelativePath, takeToFirst_eq_takeWhile, takeToFirst_eq_takeWhile,
      takeThroughLastSlash_eq]
    rfl
  exact ⟨hmain, by rw [hmain]; decide, by rw [hmain]; decide⟩

/- Embedding of the module-directory machinery: the separator, the
   constructor's split loop, path concatenation and the root-module path. -/

/-- Model of rtModuleDirSeparator on POSIX: the path-list separator ':' (the
    source returns the one-character string ":"). -/

theorem splitModuleDirs_ne_nil (s : List Char) (sep : Char) (h : s ≠ []) :
    splitModuleDirs s sep ≠ [] := by
  rw [splitModuleDirs, if_neg h]
  split
  · rename_i index hci
    by_cases hr : s.drop (index + 1) = [] <;> simp [hr]
  · simp

theorem getLast?_cons_ne_nil {α : Type} (a : α) (l : List α) (h : l ≠ []) :
    (a :: l).getLast? = l.getLast? := by
  cases l with
  | nil => exact absurd rfl h
  | cons b t => simp [List.getLast?_cons_cons]

theorem getLast?_drop_of_ne_nil (l : List Char) (n : Nat) (h : l.drop n ≠ []) :
    (l.drop n).getLast? = l.getLast? := by
  have hlen : n < l.length := by
    by_contra hc
    exact h (List.drop_eq_nil_of_le (by omega))
  rw [List.getLast?_eq_getElem?, List.getLast?_eq_getElem?]
  rw [List.getElem?_drop, List.length_drop]
  congr 1
  omega

theorem splitModuleDirs_trailing_sep (v : List Char) (hne : v ≠ [])
    (hlast : v.getLast? = some ':') :
    (splitModuleDirs v ':').getLast? = some [] := by
  have H : ∀ n (v : List Char), v.length = n → v ≠ [] → v.getLast? = some ':' →
      (splitModuleDirs v ':').getLast? = some [] := by
    intro n
    induction n using Nat.strong_induction_on with
    | _ n ih =>
      intro v hn hne hlast
      rw [splitModuleDirs, if_neg hne]
      split
      · rename_i index hci
        by_cases hrest : v.drop (index + 1) = []
        · simp [hrest]
        · simp only [hrest, if_neg, if_false]
          have hsplitne := splitModuleDirs_ne_nil (v.drop (index + 1)) ':' hrest
          rw [getLast?_cons_ne_nil _ _ hsplitne]
          have hidx := charIndexFrom_lt_length v 0 ':' index hci
          refine ih (v.drop (index + 1)).length ?_ (v.drop (index + 1)) rfl hrest ?_
          · rw [List.length_drop]
            omega
          · rw [getLast?_drop_of_ne_nil v (index + 1) hrest]
            exact hlast
      · rename_i hci
        have hnone := charIndexFrom_none v 0 ':' hci
        rw [List.getLast?_eq_getElem?] at hlast
        exact absurd hlast (hnone (v.length - 1) (Nat.zero_le _))
  exact H v.length v rfl hne hlast

/-- C3: on POSIX the module-dir constructor splits the environment value on
    ':' in order: "/x:/y:/z" yields exactly ["/x", "/y", "/z"]; a nonempty
    value ending in the separator yields an extra empty-string entry at the
    end; and when the variable is unset (or set to the empty string, which
    rtGetEnv cannot distinguish) the current working directory is the value
    that gets split. -/

theorem C3_moduleDirsSplit :
    splitModuleDirs (("/x:/y:/z").toList) rtModuleDirSeparator =
      [("/x").toList, ("/y").toList, ("/z").toList] ∧
    (∀ v : List Char, v ≠ [] → v.getLast? = some ':' →
      (splitModuleDirs v ':').getLast? = some []) ∧
    (∀ env envName cwd, env envName = none →
      rtModuleDirsInit env envName cwd = splitModuleDirs cwd rtModuleDirSeparator) ∧
    splitModuleDirs (("/x:").toList) ':' = [("/x").toList, []] := by
  refine ⟨?_, splitModuleDirs_trailing_sep, fun env envName cwd h => ?_, ?_⟩
  · simp [splitModuleDirs, charIndexFrom, rtModuleDirSeparator]
  · rw [rtModuleDirsInit, rtGetEnvAsString]
    simp [rtGetEnv, h]
  · simp [splitModuleDirs, charIndexFrom]

theorem C3_moduleDirsSplit_witness :
    (splitModuleDirs (("/a/b:").toList) ':').getLast? = some [] :=
  C3_moduleDirsSplit.2.1 (("/a/b:").toList) (by decide) (by decide)

/-- C10: rtGetRootModulePath dereferences the first entry of the parsed
    module-directory list, which is out of bounds (none in the model) exactly
    when the list is empty; on a nonempty list it is the first entry joined
    with the file name; and the parsed list is empty exactly when the
    environment variable is unset or empty and the current-working-directory
    fallback is the empty string as well. -/

theorem C10_rootModulePath :
    (∀ f, rtGetRootModulePath [] f = none) ∧
    (∀ d rest f, rtGetRootModulePath (d :: rest) f =
      some (rtConcatenatePath d (f.getD []))) ∧
    (∀ s sep, splitModuleDirs s sep = [] ↔ s = []) ∧
    (∀ env envName cwd, rtModuleDirsInit env envName cwd = [] ↔
      ((env envName = none ∨ env envName = some []) ∧ cwd = [])) := by
  have hsplit : ∀ (s : List Char) (sep : Char), splitModuleDirs s sep = [] ↔ s = [] := by
    intro s sep
    constructor
    · intro h
      by_contra hne
      exact splitModuleDirs_ne_nil s sep hne h
    · intro h
      rw [h, splitModuleDirs]
      simp
  refine ⟨fun f => rfl, fun d rest f => rfl, hsplit, fun env envName cwd => ?_⟩
  rw [rtModuleDirsInit, hsplit]
  rw [rtGetEnvAsString]
  simp only [rtGetEnv]
  cases henv : env envName with
  | none => simp
  | some v =>
    cases hv : v with
    | nil => simp
    | cons a t => simp

/- Embedding of the rtModuleDirs singleton lifecycle (instance, destroy,
   iterator) as a state machine over the static mModuleInstance pointer.  The
   state also counts constructed-and-not-yet-destroyed instances so that
   "at most one instance exists" is a provable invariant rather than a
   modelling assumption. -/

/-- State of the rtModuleDirs singleton: the static mModuleInstance pointer
    (none = NULL) holding the constructed directory list, and the number of
    live (constructed, not destroyed) instances. -/

theorem moduleDirsRun_live_inv (ops : List ModuleDirsOp) :
    ∀ s : ModuleDirsState,
      s.liveInstances = (if s.mModuleInstance.isSome then 1 else 0) →
      (moduleDirsRun s ops).liveInstances =
        (if (moduleDirsRun s ops).mModuleInstance.isSome then 1 else 0) := by
  induction ops with
  | nil => exact fun s h => h
  | cons op rest ih =>
    intro s h
    rw [moduleDirsRun, List.foldl_cons]
    refine ih (moduleDirsStep s op) ?_
    cases op with
    | callInstance env envName cwd =>
      cases hs : s.mModuleInstance with
      | none =>
        rw [hs, if_neg (by simp)] at h
        simp [moduleDirsStep, hs, h]
      | some l =>
        rw [hs, if_pos (by simp)] at h
        simp [moduleDirsStep, hs, h]
    | callDestroy =>
      cases hs : s.mModuleInstance with
      | none =>
        rw [hs, if_neg (by simp)] at h
        simp [moduleDirsStep, hs, h]
      | some l =>
        rw [hs, if_pos (by simp)] at h
        simp [moduleDirsStep, hs, h]
    | callIterator => exact h

theorem moduleDirsRun_no_destroy (ops : List ModuleDirsOp) :
    ∀ (s : ModuleDirsState) (l : List (List Char)),
      s.mModuleInstance = some l →
      (∀ op ∈ ops, op.isDestroy = false) →
      (moduleDirsRun s ops).mModuleInstance = some l := by
  induction ops with
  | nil => exact fun s l h _ => h
  | cons op rest ih =>
    intro s l h hops
    rw [moduleDirsRun, List.foldl_cons]
    have hstep : (moduleDirsStep s op).mModuleInstance = some l := by
      cases op with
      | callInstance env envName cwd => simp [moduleDirsStep, h]
      | callDestroy =>
        have := hops .callDestroy (by simp)
        simp [ModuleDirsOp.isDestroy] at this
      | callIterator => exact h
    exact ih (moduleDirsStep s op) l hstep (fun o ho => hops o (by simp [ho]))

/-- C9: the singleton invariant.  In every state reachable from the initial
    (NULL, nothing live) state, at most one rtModuleDirs instance is live;
    once the pointer holds a constructed list, no sequence of instance or
    iterator calls (anything but destroy) ever changes that list — a second
    instance() call in particular returns the cached list without re-parsing;
    and immediately after destroy(), an instance() call re-parses the
    environment from scratch, yielding exactly the constructor's split of the
    current environment value. -/

theorem C9_moduleDirsSingleton :
    (∀ ops, (moduleDirsRun moduleDirsState0 ops).liveInstances ≤ 1) ∧
    (∀ ops, (moduleDirsRun moduleDirsState0 ops).liveInstances =
      (if (moduleDirsRun moduleDirsState0 ops).mModuleInstance.isSome then 1 else 0)) ∧
    (∀ s l ops, s.mModuleInstance = some l → (∀ op ∈ ops, op.isDestroy = false) →
      (moduleDirsRun s ops).mModuleInstance = some l) ∧
    (∀ s env envName cwd,
      (moduleDirsStep s .callDestroy).mModuleInstance = none ∧
      (moduleDirsStep (moduleDirsStep s .callDestroy)
          (.callInstance env envName cwd)).mModuleInstance =
        some (rtModuleDirsInit env envName cwd)) := by
  have hinv : ∀ ops, (moduleDirsRun moduleDirsState0 ops).liveInstances =
      (if (moduleDirsRun moduleDirsState0 ops).mModuleInstance.isSome then 1 else 0) :=
    fun ops => moduleDirsRun_live_inv ops moduleDirsState0 (by simp [moduleDirsState0])
  refine ⟨fun ops => ?_, hinv, fun s l ops => moduleDirsRun_no_destroy ops s l,
    fun s env envName cwd => ?_⟩
  · rw [hinv ops]
    split <;> omega
  · cases hs : s.mModuleInstance with
    | none => exact ⟨by simp [moduleDirsStep, hs], by simp [moduleDirsStep, hs]⟩
    | some l => exact ⟨by simp [moduleDirsStep, hs], by simp [moduleDirsStep, hs]⟩

theorem C9_moduleDirsSingleton_witness :
    (moduleDirsRun ⟨some [("/x").toList], 1⟩
      [ModuleDirsOp.callIterator,
       ModuleDirsOp.callInstance (fun _ => none) ("NODE_PATH") (("/cwd").toList)]).mModuleInstance =
      some [("/x").toList] :=
  C9_moduleDirsSingleton.2.2.1 ⟨some [("/x").toList], 1⟩ [("/x").toList]
    [ModuleDirsOp.callIterator,
     ModuleDirsOp.callInstance (fun _ => none) ("NODE_PATH") (("/cwd").toList)]
    rfl
    (by intro op hop
        simp only [List.mem_cons, List.not_mem_nil, or_false] at hop
        rcases hop with rfl | rfl <;> rfl)

/- Embedding of rtFileExists / rtMakeDirectory.  The filesystem is modelled at
   the level stat and mkdir see it on POSIX: a directory is identified by
   whether its path is absolute plus its list of nonempty '/'-separated
   components (duplicate and trailing slashes are insignificant to the OS).
   The filesystem state is the list of existing directories; the root (and the
   current directory for relative paths with no components, which only the
   empty string would name — and stat("") fails) is implicit.  mkdir's
   success is an oracle mkdirOk on the raw path, modelling EACCES-style
   failures; a successful mkdir adds the normalized directory. -/

theorem sorted_lt_mem_eq (l₁ : List Nat) :
    ∀ l₂ : List Nat, List.Sorted (· < ·) l₁ → List.Sorted (· < ·) l₂ →
      (∀ x, x ∈ l₁ ↔ x ∈ l₂) → l₁ = l₂ := by
  induction l₁ with
  | nil =>
    intro l₂ _ _ hmem
    cases l₂ with
    | nil => rfl
    | cons b u => exact absurd ((hmem b).mpr (by simp)) (by simp)
  | cons a t ih =>
    intro l₂ h₁ h₂ hmem
    cases l₂ with
    | nil => exact absurd ((hmem a).mp (by simp)) (by simp)
    | cons b u =>
      have h₁' := List.sorted_cons.mp h₁
      have h₂' := List.sorted_cons.mp h₂
      have hab : a = b := by
        have ha := (hmem a).mp (by simp)
        have hb := (hmem b).mpr (by simp)
        rcases List.mem_cons.mp ha with h | h
        · exact h
        · rcases List.mem_cons.mp hb with h2 | h2
          · omega
          · have hba := h₂'.1 a h
            have hab2 := h₁'.1 b h2
            omega
      subst hab
      congr 1
      refine ih u h₁'.2 h₂'.2 (fun x => ?_)
      constructor
      · intro hx
        have hax := h₁'.1 x hx
        have := (hmem x).mp (by simp [hx])
        rcases List.mem_cons.mp this with rfl | h
        · omega
        · exact h
      · intro hx
        have hax := h₂'.1 x hx
        have := (hmem x).mpr (by simp [hx])
        rcases List.mem_cons.mp this with rfl | h
        · omega
        · exact h

theorem slashPositionsFrom_sorted (dir : List Char) (start : Nat) :
    List.Sorted (· < ·) (slashPositionsFrom dir start) :=
  List.Pairwise.filter _ (List.pairwise_lt_range dir.length)

theorem mem_slashPositionsFrom (dir : List Char) (start p : Nat) :
    p ∈ slashPositionsFrom dir start ↔ start ≤ p ∧ dir[p]? = some '/' := by
  rw [slashPositionsFrom, List.mem_filter, List.mem_range]
  simp only [decide_eq_true_eq]
  constructor
  · exact fun h => h.2
  · intro h
    refine ⟨?_, h⟩
    have : p < dir.length := by
      by_contra hc
      rw [List.getElem?_eq_none (by omega)] at h
      exact absurd h.2 (by simp)
    exact this

theorem slashPositionsFrom_eq_cons (dir : List Char) (start pos : Nat)
    (h : charIndexFrom dir start '/' = some pos) :
    slashPositionsFrom dir start = pos :: slashPositionsFrom dir (pos + 1) := by
  have hle := charIndexFrom_le dir start '/' pos h
  have hlt := charIndexFrom_lt_length dir start '/' pos h
  have hget := charIndexFrom_getElem? dir start '/' pos h
  have hmin := charIndexFrom_min dir start '/' pos h
  refine sorted_lt_mem_eq _ _ (slashPositionsFrom_sorted dir start) ?_ ?_
  · refine List.sorted_cons.mpr ⟨?_, slashPositionsFrom_sorted dir (pos + 1)⟩
    intro b hb
    have := (mem_slashPositionsFrom dir (pos + 1) b).mp hb
    omega
  · intro x
    rw [mem_slashPositionsFrom, List.mem_cons, mem_slashPositionsFrom]
    constructor
    · rintro ⟨hx1, hx2⟩
      rcases Nat.lt_trichotomy x pos with hlt2 | rfl | hgt
      · exact absurd hx2 (hmin x hx1 hlt2)
      · exact Or.inl rfl
      · exact Or.inr ⟨by omega, hx2⟩
    · rintro (rfl | ⟨hx1, hx2⟩)
      · exact ⟨hle, hget⟩
      · exact ⟨by omega, hx2⟩

theorem slashPositionsFrom_eq_nil (dir : List Char) (start : Nat)
    (h : charIndexFrom dir start '/' = none) :
    slashPositionsFrom dir start = [] := by
  have hnone := charIndexFrom_none dir start '/' h
  rw [List.eq_nil_iff_forall_not_mem]
  intro p hp
  have := (mem_slashPositionsFrom dir start p).mp hp
  exact hnone p this.1 this.2

theorem rtMakeDirectoryAux_eq_mkdirSpec (dir : List Char) (mkdirOk : List Char → Bool) :
    ∀ (i : Nat) (fs : List FsPath),
      rtMakeDirectoryAux dir mkdirOk fs i =
        mkdirSpec ((slashPositionsFrom dir (i + 1)).map (fun p => dir.take (p + 1)) ++ [dir])
          mkdirOk fs := by
  have H : ∀ n i fs, dir.length - i = n →
      rtMakeDirectoryAux dir mkdirOk fs i =
        mkdirSpec ((slashPositionsFrom dir (i + 1)).map (fun p => dir.take (p + 1)) ++ [dir])
          mkdirOk fs := by
    intro n
    induction n using Nat.strong_induction_on with
    | _ n ih =>
      intro i fs hn
      rw [rtMakeDirectoryAux]
      split
      · rename_i pos hci
        have hle := charIndexFrom_le dir (i + 1) '/' pos hci
        have hlt := charIndexFrom_lt_length dir (i + 1) '/' pos hci
        rw [slashPositionsFrom_eq_cons dir (i + 1) pos hci]
        rw [List.map_cons, List.cons_append, mkdirSpec]
        split
        · exact ih (dir.length - pos) (by omega) pos fs rfl
        · split
          · rw [ih (dir.length - pos) (by omega) pos (normPath (dir.take (pos + 1)) :: fs) rfl]
          · rfl
      · rename_i hci
        rw [slashPositionsFrom_eq_nil dir (i + 1) hci]
        rw [List.map_nil, List.nil_append, mkdirSpec]
        split
        · rfl
        · split
          · rw [mkdirSpec]
          · rfl
  exact fun i fs => H (dir.length - i) i fs rfl

theorem splitSlash_ne_nil (s : List Char) : splitSlash s ≠ [] := by
  cases s with
  | nil => simp [splitSlash]
  | cons c rest =>
    rw [splitSlash]
    split
    · simp
    · split <;> simp

theorem splitSlash_cons_slash (rest : List Char) :
    splitSlash ('/' :: rest) = [] :: splitSlash rest := by
  rw [splitSlash, if_pos rfl]

theorem splitSlash_cons_ne (c : Char) (rest : List Char) (hc : ¬c = '/') :
    splitSlash (c :: rest) =
      match splitSlash rest with
      | t :: ts => (c :: t) :: ts
      | [] => [[c]] := by
  rw [splitSlash, if_neg hc]

theorem splitSlash_append_slash (s t : List Char) :
    splitSlash (s ++ '/' :: t) = splitSlash s ++ splitSlash t := by
  induction s with
  | nil => simp [splitSlash]
  | cons c s' ih =>
    by_cases hc : c = '/'
    · subst hc
      rw [List.cons_append, splitSlash_cons_slash, splitSlash_cons_slash, ih,
        List.cons_append]
    · obtain ⟨h₀, ts', hs'⟩ : ∃ h₀ ts', splitSlash s' = h₀ :: ts' := by
        cases hsp : splitSlash s' with
        | nil => exact absurd hsp (splitSlash_ne_nil s')
        | cons a b => exact ⟨a, b, rfl⟩
      rw [List.cons_append, splitSlash_cons_ne c _ hc, splitSlash_cons_ne c _ hc, ih, hs']
      rfl

theorem getLast?_append_singleton {α : Type} (l : List α) (a : α) :
    (l ++ [a]).getLast? = some a := by
  rw [← List.head?_reverse, List.reverse_append]
  simp

theorem comps_append_slash (s t : List Char) (hlast : s.getLast? = some '/') :
    comps (s ++ t) = comps s ++ comps t := by
  rcases List.eq_nil_or_concat s with rfl | ⟨s₀, x, rfl⟩
  · simp at hlast
  · simp only [List.concat_eq_append] at hlast ⊢
    rw [getLast?_append_singleton] at hlast
    have hx : x = '/' := by simpa using hlast
    subst hx
    have h1 : s₀ ++ ['/'] ++ t = s₀ ++ '/' :: t := by simp
    have h2 : s₀ ++ ['/'] = s₀ ++ '/' :: ([] : List Char) := by simp
    rw [h1, h2, comps, comps, splitSlash_append_slash, splitSlash_append_slash,
      List.filter_append, List.filter_append, comps]
    simp [splitSlash]

theorem comps_eq_nil_all_slash (s : List Char) (h : comps s = []) :
    ∀ c ∈ s, c = '/' := by
  induction s with
  | nil => simp
  | cons c rest ih =>
    by_cases hc : c = '/'
    · subst hc
      rw [comps, splitSlash, if_pos rfl] at h
      simp only [List.filter_cons] at h
      intro x hx
      rcases List.mem_cons.mp hx with rfl | hx2
      · rfl
      · refine ih ?_ x hx2
        rw [comps]
        simpa using h
    · exfalso
      rw [comps, splitSlash, if_neg hc] at h
      rcases hsp : splitSlash rest with hnil | ⟨h₀, ts'⟩
      · exact splitSlash_ne_nil rest hsp
      · rw [hsp] at h
        simp [List.filter_cons] at h

theorem head?_all_slash (s : List Char) (h : ∀ c ∈ s, c = '/') (hne : s ≠ []) :
    s.head? = some '/' := by
  cases s with
  | nil => exact absurd rfl hne
  | cons c rest => simp [h c (by simp)]

theorem prefix_antisymm {α : Type} (l₁ l₂ : List α) (h1 : l₁ <+: l₂) (h2 : l₂ <+: l₁) :
    l₁ = l₂ :=
  h1.eq_of_length (Nat.le_antisymm h1.length_le h2.length_le)

theorem prefixClosed_descend (fs₀ : List FsPath) (hcl : prefixClosed fs₀)
    (ab : Bool) (q r : List (List Char))
    (hmem : (ab, q ++ r) ∈ fs₀) (hq : q ≠ []) : (ab, q) ∈ fs₀ := by
  induction r using List.reverseRecOn with
  | nil => simpa using hmem
  | append_singleton r c ihr =>
    have hmem2 : (ab, (q ++ r) ++ [c]) ∈ fs₀ := by
      rw [List.append_assoc]
      exact hmem
    have h2 := hcl ab (q ++ r) c hmem2 (fun hh => hq (List.append_eq_nil.mp hh).1)
    exact ihr h2

theorem rtFileExists_insert_self (dir : List Char) (fs : List FsPath)
    (hne : dir ≠ []) : rtFileExists (normPath dir :: fs) dir = true := by
  rw [rtFileExists, if_neg hne]
  by_cases hcs : comps dir = []
  · rw [if_pos hcs]
    simp [head?_all_slash dir (comps_eq_nil_all_slash dir hcs) hne]
  · rw [if_neg hcs]
    simp

theorem mkdirSpec_true (dir : List Char) (mkdirOk : List Char → Bool)
    (hok : mkdirOk [] = false) :
    ∀ (subs : List (List Char)) (fs : List FsPath), subs.getLast? = some dir →
      (mkdirSpec subs mkdirOk fs).1 = true →
      rtFileExists (mkdirSpec subs mkdirOk fs).2.1 dir = true := by
  intro subs
  induction subs with
  | nil =>
    intro fs h
    simp at h
  | cons sub rest ih =>
    intro fs hlast hret
    by_cases hrestnil : rest = []
    · subst hrestnil
      have hsubdir : sub = dir := by simpa using hlast
      subst hsubdir
      by_cases hex : rtFileExists fs sub = true
      · simp only [mkdirSpec, hex, if_true] at hret ⊢
      · have hne : sub ≠ [] := by
          intro h0
          subst h0
          have hfe : rtFileExists fs [] = false := by rw [rtFileExists, if_pos rfl]
          rw [mkdirSpec] at hret
          simp only [hfe, hok, Bool.false_eq_true, if_false] at hret
        by_cases hokd : mkdirOk sub = true
        · simp only [mkdirSpec, hex, hokd, if_false, if_true] at hret ⊢
          simp only [Bool.not_eq_true] at hex
          simp only [hex, Bool.false_eq_true, if_false, mkdirSpec]
          exact rtFileExists_insert_self sub fs hne
        · simp only [Bool.not_eq_true] at hex hokd
          simp [mkdirSpec, hex, hokd] at hret
    · have hlast2 : rest.getLast? = some dir := by
        rw [getLast?_cons_ne_nil sub rest hrestnil] at hlast
        exact hlast
      by_cases hex : rtFileExists fs sub = true
      · simp only [mkdirSpec, hex, if_true] at hret ⊢
        exact ih fs hlast2 hret
      · by_cases hokd : mkdirOk sub = true
        · simp only [Bool.not_eq_true] at hex
          simp only [mkdirSpec, hex, hokd, Bool.false_eq_true, if_false, if_true] at hret ⊢
          exact ih (normPath sub :: fs) hlast2 hret
        · simp only [Bool.not_eq_true] at hex hokd
          simp [mkdirSpec, hex, hokd] at hret

theorem mkdirSpec_false (dir : List Char) (mkdirOk : List Char → Bool)
    (fs₀ : List FsPath) (hcl : prefixClosed fs₀) (hdirne : dir ≠ []) :
    ∀ (subs : List (List Char)) (fs : List FsPath),
      (∀ sub ∈ subs, sub ≠ [] ∧ sub.head? = dir.head? ∧ comps sub <+: comps dir) →
      List.Pairwise (fun a b => comps a <+: comps b) subs →
      (∀ e ∈ fs₀, e ∈ fs) →
      (∀ e ∈ fs, e ∈ fs₀ ∨
        (e.1 = decide (dir.head? = some '/') ∧ ∀ sub ∈ subs, e.2 <+: comps sub)) →
      (mkdirSpec subs mkdirOk fs).1 = false →
      rtFileExists (mkdirSpec subs mkdirOk fs).2.1 dir = false := by
  intro subs
  induction subs with
  | nil =>
    intro fs _ _ _ _ hret
    simp [mkdirSpec] at hret
  | cons sub rest ih =>
    intro fs hsubs hpw hsup hfs hret
    have hsub := hsubs sub (by simp)
    by_cases hex : rtFileExists fs sub = true
    · simp only [mkdirSpec, hex, if_true] at hret ⊢
      refine ih fs (fun s hs => hsubs s (by simp [hs])) (List.pairwise_cons.mp hpw).2 hsup
        (fun e he => ?_) hret
      rcases hfs e he with h | ⟨h1, h2⟩
      · exact Or.inl h
      · exact Or.inr ⟨h1, fun s hs => h2 s (by simp [hs])⟩
    · by_cases hokd : mkdirOk sub = true
      · simp only [Bool.not_eq_true] at hex
        simp only [mkdirSpec, hex, hokd, Bool.false_eq_true, if_false, if_true] at hret ⊢
        refine ih (normPath sub :: fs)
          (fun s hs => hsubs s (by simp [hs])) (List.pairwise_cons.mp hpw).2
          (fun e he => List.mem_cons_of_mem _ (hsup e he)) (fun e he => ?_) hret
        rcases List.mem_cons.mp he with rfl | he2
        · refine Or.inr ⟨?_, fun s hs => ?_⟩
          · rw [normPath, hsub.2.1]
          · exact (List.pairwise_cons.mp hpw).1 s hs
        · rcases hfs e he2 with h | ⟨h1, h2⟩
          · exact Or.inl h
          · exact Or.inr ⟨h1, fun s hs => h2 s (by simp [hs])⟩
      · simp only [Bool.not_eq_true] at hex hokd
        simp only [mkdirSpec, hex, hokd, Bool.false_eq_true, if_false] at hret ⊢
        obtain ⟨hsne, hshead, r, hr⟩ := hsub
        by_contra hdirex
        rw [Bool.not_eq_false] at hdirex
        by_cases hcs : comps sub = []
        · have hhead : sub.head? = some '/' :=
            head?_all_slash sub (comps_eq_nil_all_slash sub hcs) hsne
          have hx : rtFileExists fs sub = true := by
            rw [rtFileExists, if_neg hsne, if_pos hcs]
            simp [hhead]
          rw [hx] at hex
          simp at hex
        · have hcdir : comps dir ≠ [] := by
            intro h0
            rw [h0] at hr
            exact hcs (List.append_eq_nil.mp hr).1
          have hmem : (decide (dir.head? = some '/'), comps dir) ∈ fs := by
            rw [rtFileExists, if_neg hdirne, if_neg hcdir] at hdirex
            simpa [normPath] using hdirex
          have hsubmem : (decide (dir.head? = some '/'), comps sub) ∈ fs := by
            rcases hfs _ hmem with h | ⟨h1, h2⟩
            · refine hsup _ (prefixClosed_descend fs₀ hcl _ (comps sub) r ?_ hcs)
              rw [hr]
              exact h
            · have h3 := h2 sub (by simp)
              have heq : comps sub = comps dir := prefix_antisymm _ _ ⟨r, hr⟩ h3
              rw [heq]
              exact hmem
          have hx : rtFileExists fs sub = true := by
            rw [rtFileExists, if_neg hsne, if_neg hcs]
            have hnp : normPath sub = (decide (dir.head? = some '/'), comps sub) := by
              rw [normPath, hshead]
            simp [hnp, hsubmem]
          rw [hx] at hex
          simp at hex

theorem pairwise_imp_of_mem {α : Type} {R S : α → α → Prop} :
    ∀ l : List α, (∀ a b, a ∈ l → b ∈ l → R a b → S a b) → l.Pairwise R → l.Pairwise S := by
  intro l
  induction l with
  | nil =>
    intro _ _
    exact List.Pairwise.nil
  | cons a t ih =>
    intro h hp
    rcases List.pairwise_cons.mp hp with ⟨h1, h2⟩
    refine List.pairwise_cons.mpr ⟨fun b hb => h a b (by simp) (by simp [hb]) (h1 b hb), ?_⟩
    exact ih (fun x y hx hy => h x y (by simp [hx]) (by simp [hy])) h2

theorem take_getLast?_slash (dir : List Char) (p : Nat) (hp : dir[p]? = some '/') :
    (dir.take (p + 1)).getLast? = some '/' := by
  rw [List.take_succ, hp]
  exact getLast?_append_singleton _ _

theorem take_head? (dir : List Char) (p : Nat) :
    (dir.take (p + 1)).head? = dir.head? := by
  cases dir with
  | nil => simp
  | cons c t => simp [List.take_succ_cons]

theorem take_ne_nil_of_slash (dir : List Char) (p : Nat) (hp : dir[p]? = some '/') :
    dir.take (p + 1) ≠ [] := by
  have hlt : p < dir.length := by
    by_contra hc
    rw [List.getElem?_eq_none (by omega)] at hp
    cases hp
  intro h0
  have hl : (dir.take (p + 1)).length = 0 := by
    rw [h0]
    rfl
  rw [List.length_take] at hl
  omega

theorem comps_take_prefix (dir : List Char) (p : Nat) (hp : dir[p]? = some '/') :
    comps (dir.take (p + 1)) <+: comps dir := by
  conv_rhs => rw [← List.take_append_drop (p + 1) dir]
  rw [comps_append_slash _ _ (take_getLast?_slash dir p hp)]
  exact ⟨_, rfl⟩

theorem comps_take_take_prefix (dir : List Char) (p q : Nat) (hpq : p ≤ q)
    (hp : dir[p]? = some '/') :
    comps (dir.take (p + 1)) <+: comps (dir.take (q + 1)) := by
  have hraw : dir.take (p + 1) <+: dir.take (q + 1) := by
    rw [show dir.take (p + 1) = (dir.take (q + 1)).take (p + 1) from by
      rw [List.take_take, min_eq_left (by omega)]]
    exact List.take_prefix _ _
  obtain ⟨t, ht⟩ := hraw
  rw [← ht, comps_append_slash _ _ (take_getLast?_slash dir p hp)]
  exact ⟨_, rfl⟩

theorem processSubs_facts (dir : List Char) (hne : dir ≠ []) :
    ∀ sub ∈ processSubs dir, sub ≠ [] ∧ sub.head? = dir.head? ∧ comps sub <+: comps dir := by
  intro sub hsub
  rw [processSubs, List.mem_append] at hsub
  rcases hsub with hsub | hsub
  · obtain ⟨p, hp, rfl⟩ := List.mem_map.mp hsub
    have hpm := (mem_slashPositionsFrom dir 1 p).mp hp
    exact ⟨take_ne_nil_of_slash dir p hpm.2, take_head? dir p, comps_take_prefix dir p hpm.2⟩
  · have hd : sub = dir := by simpa using hsub
    subst hd
    exact ⟨hne, rfl, List.prefix_refl _⟩

theorem processSubs_pairwise (dir : List Char) :
    List.Pairwise (fun a b => comps a <+: comps b) (processSubs dir) := by
  rw [processSubs, List.pairwise_append]
  refine ⟨?_, by simp, ?_⟩
  · rw [List.pairwise_map]
    refine pairwise_imp_of_mem _ ?_ (slashPositionsFrom_sorted dir 1)
    intro p q hp _ hlt
    exact comps_take_take_prefix dir p q (by omega)
      ((mem_slashPositionsFrom dir 1 p).mp hp).2
  · intro a ha b hb
    have hbd : b = dir := by simpa using hb
    obtain ⟨p, hp, rfl⟩ := List.mem_map.mp ha
    rw [hbd]
    exact comps_take_prefix dir p ((mem_slashPositionsFrom dir 1 p).mp hp).2

theorem processSubs_getLast? (dir : List Char) :
    (processSubs dir).getLast? = some dir := by
  rw [processSubs]
  exact getLast?_append_singleton _ _

theorem rtMakeDirectory_eq_mkdirSpec (dir : List Char) (mkdirOk : List Char → Bool)
    (fs : List FsPath) :
    rtMakeDirectory dir mkdirOk fs = mkdirSpec (processSubs dir) mkdirOk fs := by
  rw [rtMakeDirectory, rtMakeDirectoryAux_eq_mkdirSpec]
  rfl

theorem rtMakeDirectory_true_iff (dir : List Char) (mkdirOk : List Char → Bool)
    (fs : List FsPath) (hcl : prefixClosed fs) (hok : mkdirOk [] = false) :
    ((rtMakeDirectory dir mkdirOk fs).1 = true ↔
      rtFileExists (rtMakeDirectory dir mkdirOk fs).2.1 dir = true) := by
  rw [rtMakeDirectory_eq_mkdirSpec]
  by_cases hne : dir = []
  · subst hne
    have hps : processSubs ([] : List Char) = [[]] := rfl
    rw [hps]
    have hfe : rtFileExists fs [] = false := by rw [rtFileExists, if_pos rfl]
    rw [mkdirSpec]
    simp [mkdirSpec, hfe, hok]
  · constructor
    · exact mkdirSpec_true dir mkdirOk hok (processSubs dir) fs (processSubs_getLast? dir)
    · intro h
      by_contra hret
      rw [Bool.not_eq_true] at hret
      have hfalse := mkdirSpec_false dir mkdirOk fs hcl hne (processSubs dir) fs
        (processSubs_facts dir hne) (processSubs_pairwise dir)
        (fun e he => he) (fun e he => Or.inl he) hret
      rw [h] at hfalse
      cases hfalse

/-- C2: makeDirectoryRecursive processes exactly the prefixes of the path
    delimited by the successive '/' separators (at index 1 or later, then the
    whole path) in left-to-right order, skipping an existing prefix, creating a
    missing one, and stopping with failure at the first mkdir failure (first
    conjunct: the loop equals that left-to-right fold); over any prefix-closed
    filesystem, and with mkdir failing on the empty path as POSIX does, it
    returns true exactly when the full path exists afterwards (second
    conjunct); on a clean filesystem "a/b/c/" creates the directories a, a/b,
    a/b/c in that order and returns true, and running it again on the
    resulting filesystem returns true creating nothing (third and fourth
    conjuncts). -/

theorem C2_makeDirectory :
    (∀ dir mkdirOk fs, rtMakeDirectory dir mkdirOk fs =
      mkdirSpec ((slashPositions dir).map (fun p => dir.take (p + 1)) ++ [dir])
        mkdirOk fs) ∧
    (∀ dir mkdirOk fs, prefixClosed fs → mkdirOk [] = false →
      ((rtMakeDirectory dir mkdirOk fs).1 = true ↔
        rtFileExists (rtMakeDirectory dir mkdirOk fs).2.1 dir = true)) ∧
    rtMakeDirectory (("a/b/c/").toList) (fun _ => true) [] =
      (true,
       [(false, [("a").toList, ("b").toList, ("c").toList]),
        (false, [("a").toList, ("b").toList]),
        (false, [("a").toList])],
       [(false, [("a").toList]),
        (false, [("a").toList, ("b").toList]),
        (false, [("a").toList, ("b").toList, ("c").toList])]) ∧
    rtMakeDirectory (("a/b/c/").toList) (fun _ => true)
        [(false, [("a").toList, ("b").toList, ("c").toList]),
         (false, [("a").toList, ("b").toList]),
         (false, [("a").toList])] =
      (true,
       [(false, [("a").toList, ("b").toList, ("c").toList]),
        (false, [("a").toList, ("b").toList]),
        (false, [("a").toList])],
       []) := by
  have hA : ∀ (dir : List Char) (mkdirOk : List Char → Bool) (fs : List FsPath),
      rtMakeDirectory dir mkdirOk fs =
        mkdirSpec ((slashPositions dir).map (fun p => dir.take (p + 1)) ++ [dir])
          mkdirOk fs :=
    fun dir mkdirOk fs => rtMakeDirectory_eq_mkdirSpec dir mkdirOk fs
  refine ⟨hA, fun dir mkdirOk fs hcl hok =>
    rtMakeDirectory_true_iff dir mkdirOk fs hcl hok, ?_, ?_⟩
  · rw [hA]
    decide
  · rw [hA]
    decide

theorem C2_makeDirectory_witness :
    ((rtMakeDirectory (("a/b/c/").toList) (fun s => !s.isEmpty) []).1 = true ↔
      rtFileExists (rtMakeDirectory (("a/b/c/").toList) (fun s => !s.isEmpty) []).2.1
        (("a/b/c/").toList) = true) :=
  C2_makeDirectory.2.1 (("a/b/c/").toList) (fun s => !s.isEmpty) []
    (fun ab cs c h _ => absurd h (List.not_mem_nil _)) rfl
